import Mathlib

/-!
# Verification of the gdrive_summarizer pipeline

A shallow embedding, in Lean 4, of the behaviourally relevant parts of the
`gdrive_summarizer` Python package:

* `llm_client.py` — the retrying HTTP client (`_request_with_retry`) and the
  vision fallback protocol (`describe_image`);
* `summarizer.py` — the orchestrator (`summarize_folder`): per-file extraction
  bookkeeping, short-circuit messages, prompt assembly with truncation;
* `processors/base.py` — the extension → processor registry
  (`register_processor` / `get_processor`);
* `processors/text_processor.py` — the encoding-fallback text extractor.

External effects (HTTP, the filesystem, `gdown`) are modelled as oracles passed
in explicitly: an HTTP interaction is a function from the attempt number to the
`Response` observed, extraction is a function from a file to the string the
processor produced (or `none` when it raised / no processor exists), and the
final chat call is a function from the assembled prompt to the reply.  The Lean
functions mirror the Python control flow statement by statement and additionally
record traces (attempts made, sleeps performed, models tried, chat calls
issued) so that claims about "no call happens" are provable.
-/

namespace GdriveSummarizer

/-! ## Candidate model list (`llm_client.describe_image`, lines 155–159)

```python
models_to_try: List[str] = [VISION_MODEL]
for fb in VISION_FALLBACK_MODELS:
    if fb not in models_to_try:
        models_to_try.append(fb)
```
-/

/-- The candidate model list built by `describe_image`: the primary model
followed by each fallback that is not already present. -/
def modelsToTry (primary : String) (fallbacks : List String) : List String :=
  fallbacks.foldl (fun acc fb => if fb ∈ acc then acc else acc ++ [fb]) [primary]

/-- Reference definition, written from the spec's words: "the configured
fallback list with duplicates removed, preserving first-seen order" — keep the
first occurrence of every element, drop the rest. -/
def dedupFirstSeen : List String → List String
  | [] => []
  | x :: xs => x :: dedupFirstSeen (xs.filter (fun y => y ≠ x))
termination_by l => l.length
decreasing_by
  simp only [List.length_cons]
  exact Nat.lt_succ_of_le (List.length_filter_le _ _)

/-- The loop body of the candidate-list construction, in isolation. -/
def insertCand (acc : List String) (fb : String) : List String :=
  if fb ∈ acc then acc else acc ++ [fb]

/-! ## The retrying HTTP client (`llm_client._request_with_retry`, lines 31–83)

One HTTP attempt is modelled by the `Response` the server returned; the whole
interaction by an oracle `responses : Nat → Response` giving the response to
the n-th attempt (attempts are numbered from 1, as in
`for attempt in range(1, MAX_RETRIES + 1)`).  A `Response` carries the HTTP
status code, whether the body parses as JSON (`resp.json()` raises otherwise),
the reply field `choices[0].message.content` (`""` models both a missing and an
empty reply, which Python's truthiness test treats alike), the embedded
`error.message` (`""` when absent), and the raw body text. -/
structure Response where
  status : Nat
  jsonOk : Bool
  reply : String
  errorMsg : String
  text : String
deriving Repr, DecidableEq

/-- Outcome of `_request_with_retry`, mirroring its Python exits: a returned
reply, a `ContentBlockedError` (403), an uncaught JSON-decode error on a 200
body, an `HTTPError` from `raise_for_status`, or the final `RuntimeError`
after all attempts are used. -/
inductive ReqResult where
  | ok (reply : String)
  | blocked (msg : String)
  | jsonFail
  | fatal (status : Nat)
  | exhausted (msg : String)
deriving Repr, DecidableEq

/-- The `error_body` used in the 403 `ContentBlockedError`: the parsed
`error.message` when the body is JSON, else the first 300 characters of the
raw text. -/
def blockedBody (r : Response) : String :=
  if r.jsonOk then r.errorMsg else r.text.take 300

/-- Message of the `ContentBlockedError` raised on a 403. -/
def blockedMsg (model : String) (r : Response) : String :=
  "Model " ++ model ++ " returned 403: " ++ blockedBody r

/-- Message of the final `RuntimeError` when all attempts are exhausted. -/
def exhaustedMsg (maxRetries : Nat) (lastResp : Option Response) : String :=
  "OpenRouter request failed after " ++ toString maxRetries
    ++ " retries. Last status: "
    ++ (match lastResp with
        | some r => toString r.status
        | none => "?")
    ++ ", body: "
    ++ (match lastResp with
        | some r => r.text.take 500
        | none => "N/A")

/-- The three statuses retried with backoff: `(429, 402, 503)`. -/
def isTransient (s : Nat) : Bool :=
  s == 429 || s == 402 || s == 503

/-- Backoff duration: `wait = RETRY_DELAY * attempt` (line 54). -/
def waitTime (retryDelay : ℚ) (attempt : Nat) : ℚ :=
  retryDelay * attempt

/-- Full observable behaviour of one `_request_with_retry` call: its outcome,
how many HTTP requests it sent, and the sequence of sleep durations it
performed, in order. -/
structure RetryTrace where
  result : ReqResult
  attempts : Nat
  sleeps : List ℚ
deriving Repr, DecidableEq

/-- The retry loop.  `fuel` is the number of attempts still allowed
(`maxRetries - att`), `att` the number of attempts already made, `sleeps` the
sleeps so far in reverse order, and `lastResp` the last response seen.  Each
iteration mirrors the Python body in order: the 200 branch (return a non-empty
reply; a JSON-decode failure propagates; an error payload only logs and falls
through), the transient branch (sleep `retryDelay * attempt` and continue),
the 403 branch (`ContentBlockedError`), `raise_for_status` (raises only for
status ≥ 400), and otherwise the loop just continues. -/
def requestAux (model : String) (retryDelay : ℚ) (maxRetries : Nat)
    (responses : Nat → Response) :
    Nat → Nat → List ℚ → Option Response → RetryTrace
  | 0, att, sleeps, lastResp =>
      ⟨.exhausted (exhaustedMsg maxRetries lastResp), att, sleeps.reverse⟩
  | fuel + 1, att, sleeps, _ =>
      let r := responses (att + 1)
      if r.status = 200 then
        if r.jsonOk then
          if r.reply ≠ "" then ⟨.ok r.reply, att + 1, sleeps.reverse⟩
          else requestAux model retryDelay maxRetries responses fuel (att + 1) sleeps (some r)
        else ⟨.jsonFail, att + 1, sleeps.reverse⟩
      else if isTransient r.status then
        requestAux model retryDelay maxRetries responses fuel (att + 1)
          (waitTime retryDelay (att + 1) :: sleeps) (some r)
      else if r.status = 403 then ⟨.blocked (blockedMsg model r), att + 1, sleeps.reverse⟩
      else if 400 ≤ r.status then ⟨.fatal r.status, att + 1, sleeps.reverse⟩
      else requestAux model retryDelay maxRetries responses fuel (att + 1) sleeps (some r)

/-- Model of `_request_with_retry`: run the loop with `MAX_RETRIES` attempts allowed. -/
def requestWithRetry (model : String) (retryDelay : ℚ) (maxRetries : Nat)
    (responses : Nat → Response) : RetryTrace :=
  requestAux model retryDelay maxRetries responses maxRetries 0 [] none

/-! ## Vision fallback protocol (`llm_client.describe_image`, lines 161–182)

`describe_image` walks the candidate list; for each model it calls
`_request_with_retry`, catching exactly `ContentBlockedError` and
`RuntimeError` (recording the exception as `last_error` and continuing) while
any reply returns at once and any other exception propagates.  If the loop
finishes, it raises `RuntimeError(f"All vision models failed. Last error:
{last_error}")`.  The HTTP world is an oracle `responses : String → Nat →
Response` giving, per model, the response to each attempt. -/

/-- Outcome of a `describe_image` call. -/
inductive VisionResult where
  | ok (model reply : String)
  | jsonFail
  | fatal (status : Nat)
  | allFailed (msg : String)
deriving Repr, DecidableEq

/-- The exceptions `describe_image` catches and records: `ContentBlockedError`
and the retries-exhausted `RuntimeError`. -/
def skippable : ReqResult → Bool
  | .blocked _ => true
  | .exhausted _ => true
  | _ => false

/-- The message of the exception recorded in `last_error` (meaningful only for
`skippable` results). -/
def recordedErr : ReqResult → String
  | .blocked msg => msg
  | .exhausted msg => msg
  | _ => ""

/-- Message of the aggregate `RuntimeError` raised when the candidate loop
finishes without returning; Python stringifies `last_error` (`None` when no
candidate was tried). -/
def aggregateMsg (lastError : Option String) : String :=
  "All vision models failed. Last error: "
    ++ (match lastError with
        | some m => m
        | none => "None")

/-- How a non-skippable `_request_with_retry` outcome for model `m` surfaces
from `describe_image`: a reply returns, any other exception propagates.
(The `skippable` cases are unreachable where this is used.) -/
def stopResult (m : String) : ReqResult → VisionResult
  | .ok reply => .ok m reply
  | .jsonFail => .jsonFail
  | .fatal s => .fatal s
  | .blocked msg => .allFailed msg
  | .exhausted msg => .allFailed msg

/-- The candidate loop of `describe_image`.  `oc model` is the outcome of
`_request_with_retry` for that model's payload.  Returns the final outcome
together with the list of models actually tried, in order. -/
def tryModels (oc : String → ReqResult) :
    List String → Option String → VisionResult × List String
  | [], lastError => (.allFailed (aggregateMsg lastError), [])
  | m :: rest, _lastError =>
    match oc m with
    | .ok reply => (.ok m reply, [m])
    | .blocked msg =>
        let r := tryModels oc rest (some msg)
        (r.1, m :: r.2)
    | .exhausted msg =>
        let r := tryModels oc rest (some msg)
        (r.1, m :: r.2)
    | .jsonFail => (.jsonFail, [m])
    | .fatal s => (.fatal s, [m])

/-- The per-model outcome `describe_image` observes: run
`_request_with_retry` on that model's response stream. -/
def visionOutcome (d : ℚ) (mr : Nat) (responses : String → Nat → Response)
    (model : String) : ReqResult :=
  (requestWithRetry model d mr (responses model)).result

/-- Model of `describe_image`: build the candidate list, then walk it. -/
def describeImage (p : String) (fbs : List String) (d : ℚ) (mr : Nat)
    (responses : String → Nat → Response) : VisionResult × List String :=
  tryModels (visionOutcome d mr responses) (modelsToTry p fbs) none

/-- The last element of a list, with a fallback for the empty list (the
"last candidate", i.e. the model whose failure ends up in `last_error`). -/
def lastCandidate (dflt : String) : List String → String
  | [] => dflt
  | [x] => x
  | _ :: y :: xs => lastCandidate dflt (y :: xs)

/-! ## Processor registry (`processors/base.py`, lines 30–58)

`_EXTENSION_MAP` is a Python dict from lowercase dot-extensions to processor
classes; it is modelled as an insertion-ordered association list with Python
dict assignment semantics (`dictInsert`: updating an existing key keeps its
position, a new key is appended).  The processor-class type is an arbitrary
type parameter `P`. -/

/-- Python dict assignment `d[k] = v` on an insertion-ordered association
list. -/
def dictInsert {P : Type} : List (String × P) → String → P → List (String × P)
  | [], k, v => [(k, v)]
  | kv :: d, k, v => if kv.1 == k then (k, v) :: d else kv :: dictInsert d k v

/-- Python `d.get(k)`: the value stored under `k`, if any (keys are unique by
construction, so first match = only match). -/
def lookupKey {P : Type} : List (String × P) → String → Option P
  | [], _ => none
  | kv :: d, k => if kv.1 == k then some kv.2 else lookupKey d k

/-- Python's `str.lower()`, character-wise. -/
def lowerStr (s : String) : String := ⟨s.data.map Char.toLower⟩

/-- Model of `register_processor`: store the class under the lowercased extension. -/
def registerProcessor {P : Type} (m : List (String × P)) (extension : String)
    (cls : P) : List (String × P) :=
  dictInsert m (lowerStr extension) cls

/-- Model of `get_processor`: look up the lowercased extension of the file
(`file_path.suffix.lower()`); `none` when no processor is registered. -/
def getProcessor {P : Type} (m : List (String × P)) (suffix : String) : Option P :=
  lookupKey m (lowerStr suffix)

/-! ## Orchestrator (`summarizer.py`) and text extractor
(`processors/text_processor.py`)

A downloaded file is a path plus its base name (`f.name`); extraction is an
oracle `extract : DFile → Option String` standing for
`_extract_file_content` (`none` models "no processor registered" and "the
processor raised", both downgraded to the placeholder; `some s` a successful
`processor.extract` returning `s`).  The final chat call is an oracle from the
combined prompt to the reply.  `summarizeFolder` records which files had
extraction attempted and which prompts were sent to `llm_client.chat`. -/
structure DFile where
  path : String
  name : String
deriving Repr, DecidableEq

/-- The per-file failure placeholder `"(не удалось извлечь содержимое)"`. -/
def failPlaceholder : String := "(не удалось извлечь содержимое)"

/-- Message returned when the downloader produced no files. -/
def emptyFolderMsg : String := "Папка пуста или файлы не удалось скачать."

/-- Message returned when every per-file value is the failure placeholder. -/
def nothingExtractedMsg : String := "Не удалось извлечь содержимое ни из одного файла."

/-- Line 68, `if content: … else: placeholder` — Python truthiness: `None` and the
empty string both downgrade to the placeholder. -/
def contentOrPlaceholder : Option String → String
  | some s => if s == "" then failPlaceholder else s
  | none => failPlaceholder

/-- The `per_file` dict: insert each file's name with its extracted content or
the placeholder, in download order. -/
def perFileMap (files : List DFile) (extract : DFile → Option String) :
    List (String × String) :=
  files.foldl (fun d f => dictInsert d f.name (contentOrPlaceholder (extract f))) []

/-- The truncation marker appended to over-long content. -/
def truncMarker : String := "\n... (содержимое обрезано)"

/-- Lines 80–82: `truncated = content[:12_000]`, with the marker appended when
the content exceeds the cap. -/
def truncateContent (content : String) : String :=
  let truncated := content.take 12000
  if content.length > 12000 then truncated ++ truncMarker else truncated

/-- One file's section of the combined prompt:
`f"### Файл: {name}\n\n{truncated}"`. -/
def filePart (name content : String) : String :=
  "### Файл: " ++ name ++ "\n\n" ++ truncateContent content

/-- The fixed header of the combined prompt. -/
def promptHeader : String :=
  "Ниже приведено содержимое / описание каждого файла из папки.\nСделай общее подробное саммари по ВСЕМ файлам папки.\n\n"

/-- The delimiter `"\n\n---\n\n"` joining the per-file sections. -/
def sectionSep : String := "\n\n---\n\n"

/-- Python `sep.join(parts)`. -/
def joinSep (sep : String) : List String → String
  | [] => ""
  | [x] => x
  | x :: y :: rest => x ++ sep ++ joinSep sep (y :: rest)

/-- The combined prompt: header plus the per-file sections joined by the
delimiter. -/
def combinedPrompt (perFile : List (String × String)) : String :=
  promptHeader ++ joinSep sectionSep (perFile.map (fun kv => filePart kv.1 kv.2))

/-- Everything observable about one `summarize_folder` run: the returned
string, the files extraction was attempted on, and the prompts sent to
`llm_client.chat`. -/
structure SummarizeTrace where
  result : String
  extractionAttempts : List DFile
  chatCalls : List String
deriving Repr, DecidableEq

/-- Model of `summarize_folder`, given the downloader's file list and the extraction
and chat oracles. -/
def summarizeFolder (files : List DFile) (extract : DFile → Option String)
    (chat : String → String) : SummarizeTrace :=
  if files.isEmpty then ⟨emptyFolderMsg, [], []⟩
  else
    let perFile := perFileMap files extract
    if perFile.all (fun kv => kv.2 == failPlaceholder) then
      ⟨nothingExtractedMsg, files, []⟩
    else
      let prompt := combinedPrompt perFile
      ⟨chat prompt, files, [prompt]⟩

/-- The encoding list `TextProcessor.ENCODINGS`. -/
def ENCODINGS : List String := ["utf-8", "cp1251", "latin-1"]

/-- Model of `TextProcessor.extract`: try each encoding in order (`decode enc` is the
result of `file_path.read_text(encoding=enc)`, `none` when it raises a decode
error); return the first successful decode, or `""` when every encoding
fails. -/
def textExtract (decode : String → Option String) : List String → String
  | [] => ""
  | enc :: rest =>
    match decode enc with
    | some t => t
    | none => textExtract decode rest

/-! ## Duplicate base names (`per_file` dict semantics)

`per_file` is keyed by `f.name`; re-assigning an existing key keeps its
position (Python dict semantics, mirrored by `dictInsert`), so a later file
with the same base name overwrites the earlier one's content at the position
of the first occurrence. -/

/-- The last file in the list with the given base name, if any (the one whose
content survives in the dict). -/
def findLastNamed (k : String) : List DFile → Option DFile
  | [] => none
  | f :: fs =>
    match findLastNamed k fs with
    | some g => some g
    | none => if f.name == k then some f else none

theorem dedupFirstSeen_nil : dedupFirstSeen [] = [] := by
  simp [dedupFirstSeen]

theorem dedupFirstSeen_cons (x : String) (xs : List String) :
    dedupFirstSeen (x :: xs) = x :: dedupFirstSeen (xs.filter (fun y => y ≠ x)) := by
  simp [dedupFirstSeen]

theorem mem_dedupFirstSeen (l : List String) (y : String) :
    y ∈ dedupFirstSeen l ↔ y ∈ l := by
  induction l using dedupFirstSeen.induct with
  | case1 => simp [dedupFirstSeen]
  | case2 x xs ih =>
    rw [dedupFirstSeen_cons]
    simp only [List.mem_cons, ih, List.mem_filter]
    constructor
    · rintro (h | ⟨h, _⟩)
      · exact Or.inl h
      · exact Or.inr h
    · rintro (h | h)
      · exact Or.inl h
      · by_cases hyx : y = x
        · exact Or.inl hyx
        · exact Or.inr ⟨h, by simp [hyx]⟩

theorem dedupFirstSeen_nodup (l : List String) : (dedupFirstSeen l).Nodup := by
  induction l using dedupFirstSeen.induct with
  | case1 => simp [dedupFirstSeen]
  | case2 x xs ih =>
    rw [dedupFirstSeen_cons]
    refine List.nodup_cons.mpr ⟨?_, ih⟩
    intro hx
    have := List.mem_filter.mp ((mem_dedupFirstSeen _ _).mp hx)
    simp at this

theorem modelsToTry_eq_foldl (p : String) (fbs : List String) :
    modelsToTry p fbs = fbs.foldl insertCand [p] := rfl

theorem foldl_insertCand (l : List String) :
    ∀ acc : List String,
      l.foldl insertCand acc = acc ++ dedupFirstSeen (l.filter (fun y => ¬ y ∈ acc)) := by
  induction l with
  | nil => intro acc; simp [dedupFirstSeen]
  | cons x xs ih =>
    intro acc
    by_cases hx : x ∈ acc
    · have hstep : insertCand acc x = acc := by simp [insertCand, hx]
      rw [List.foldl_cons, hstep]
      have hfilter :
          (x :: xs).filter (fun y => ¬ y ∈ acc) = xs.filter (fun y => ¬ y ∈ acc) := by
        simp [List.filter_cons, hx]
      rw [hfilter]
      exact ih acc
    · have hstep : insertCand acc x = acc ++ [x] := by simp [insertCand, hx]
      rw [List.foldl_cons, hstep, ih (acc ++ [x])]
      have hfilter :
          (x :: xs).filter (fun y => ¬ y ∈ acc)
            = x :: xs.filter (fun y => ¬ y ∈ acc) := by
        simp [List.filter_cons, hx]
      rw [hfilter, dedupFirstSeen_cons]
      have hff : xs.filter (fun y => ¬ y ∈ acc ++ [x])
          = (xs.filter (fun y => ¬ y ∈ acc)).filter (fun y => y ≠ x) := by
        rw [List.filter_filter]
        apply List.filter_congr
        intro y _
        by_cases hy : y ∈ acc <;> by_cases hyx : y = x <;>
          simp_all
      rw [List.append_assoc, List.singleton_append, hff]

theorem modelsToTry_eq_dedupFirstSeen (p : String) (fbs : List String) :
    modelsToTry p fbs = dedupFirstSeen (p :: fbs) := by
  rw [modelsToTry_eq_foldl, foldl_insertCand, dedupFirstSeen_cons]
  have : fbs.filter (fun y => ¬ y ∈ ([p] : List String))
      = fbs.filter (fun y => y ≠ p) := by
    apply List.filter_congr
    intro y _
    simp
  simp [this]

/-- C1. For every primary vision model and configured fallback list, the
candidate list tried by `describe_image` is the primary model followed by the
fallbacks with duplicates removed in first-seen order (`dedupFirstSeen`); it
has no duplicates, starts with the primary model, and for primary `M0` with
fallbacks `[M1, M0, M2]` it is `[M0, M1, M2]`. -/
theorem modelsToTry_spec (p : String) (fbs : List String) :
    modelsToTry p fbs = dedupFirstSeen (p :: fbs)
      ∧ (modelsToTry p fbs).Nodup
      ∧ (modelsToTry p fbs).head? = some p
      ∧ modelsToTry "M0" ["M1", "M0", "M2"] = ["M0", "M1", "M2"] := by
  refine ⟨modelsToTry_eq_dedupFirstSeen p fbs, ?_, ?_, ?_⟩
  · rw [modelsToTry_eq_dedupFirstSeen]
    exact dedupFirstSeen_nodup _
  · rw [modelsToTry_eq_dedupFirstSeen, dedupFirstSeen_cons]
    rfl
  · rfl

theorem requestAux_bodyError (model : String) (d : ℚ) (mr : Nat) (rs : Nat → Response) :
    ∀ fuel att sleeps lastResp,
      (∀ n, att < n → n ≤ att + fuel →
        (rs n).status = 200 ∧ (rs n).jsonOk = true ∧ (rs n).reply = "") →
      requestAux model d mr rs fuel att sleeps lastResp =
        ⟨.exhausted (exhaustedMsg mr (if fuel = 0 then lastResp else some (rs (att + fuel)))),
         att + fuel, sleeps.reverse⟩ := by
  intro fuel
  induction fuel with
  | zero => intro att sleeps lastResp _; simp [requestAux]
  | succ fuel ih =>
    intro att sleeps lastResp h
    have h1 := h (att + 1) (Nat.lt_succ_self att) (by omega)
    rw [requestAux]
    simp only [h1.1, h1.2.1, h1.2.2, ne_eq, not_true_eq_false, reduceIte]
    rw [ih (att + 1) sleeps (some (rs (att + 1)))
      (fun n hn1 hn2 => h n (by omega) (by omega))]
    have harith : att + 1 + fuel = att + (fuel + 1) := by omega
    rcases Nat.eq_zero_or_pos fuel with hf | hf
    · subst hf
      norm_num
    · have hne : fuel ≠ 0 := by omega
      simp only [hne, if_false, Nat.succ_ne_zero, harith]

/-- C3. When every attempt yields an HTTP 200 whose JSON body carries an
error payload instead of a non-empty reply, each such response consumes one
attempt and the loop falls through to the next attempt rather than returning
or raising; after the configured maximum number of attempts the call fails
with the retries-exhausted `RuntimeError` (whose message reports the last
response), having sent exactly `maxRetries` requests (and, in this path,
without sleeping). -/
theorem requestWithRetry_bodyError (model : String) (d : ℚ) (mr : Nat)
    (rs : Nat → Response)
    (h : ∀ n, 1 ≤ n → n ≤ mr → (rs n).status = 200 ∧ (rs n).jsonOk = true
        ∧ (rs n).reply = "" ∧ (rs n).errorMsg ≠ "") :
    requestWithRetry model d mr rs =
      ⟨.exhausted (exhaustedMsg mr (if mr = 0 then none else some (rs mr))), mr, []⟩ := by
  unfold requestWithRetry
  rw [requestAux_bodyError model d mr rs mr 0 [] none
    (fun n hn1 hn2 => ⟨(h n hn1 (by omega)).1, (h n hn1 (by omega)).2.1,
      (h n hn1 (by omega)).2.2.1⟩)]
  simp

theorem requestWithRetry_bodyError_witness :
    requestWithRetry "m" 5 3 (fun _ => ⟨200, true, "", "boom", "body"⟩)
      = ⟨.exhausted (exhaustedMsg 3 (some ⟨200, true, "", "boom", "body"⟩)), 3, []⟩ := by
  have h := requestWithRetry_bodyError "m" 5 3 (fun _ => ⟨200, true, "", "boom", "body"⟩)
    (fun n _ _ => ⟨rfl, rfl, rfl, by simp⟩)
  simpa using h

theorem requestAux_transient (model : String) (d : ℚ) (mr : Nat) (rs : Nat → Response) :
    ∀ fuel att sleeps lastResp,
      (∀ n, att < n → n ≤ att + fuel → isTransient (rs n).status = true) →
      requestAux model d mr rs fuel att sleeps lastResp =
        ⟨.exhausted (exhaustedMsg mr (if fuel = 0 then lastResp else some (rs (att + fuel)))),
         att + fuel,
         sleeps.reverse ++ (List.range fuel).map (fun i => waitTime d (att + 1 + i))⟩ := by
  intro fuel
  induction fuel with
  | zero => intro att sleeps lastResp _; simp [requestAux]
  | succ fuel ih =>
    intro att sleeps lastResp h
    have h1 := h (att + 1) (Nat.lt_succ_self att) (by omega)
    have hst : ¬ (rs (att + 1)).status = 200 := by
      intro hc
      rw [hc] at h1
      simp [isTransient] at h1
    rw [requestAux]
    simp only [hst, h1, reduceIte, if_false, if_true]
    rw [ih (att + 1) (waitTime d (att + 1) :: sleeps) (some (rs (att + 1)))
      (fun n hn1 hn2 => h n (by omega) (by omega))]
    have harith : att + 1 + fuel = att + (fuel + 1) := by omega
    have hrange : (List.range (fuel + 1)).map (fun i => waitTime d (att + 1 + i))
        = waitTime d (att + 1)
            :: (List.range fuel).map (fun i => waitTime d (att + 1 + 1 + i)) := by
      rw [List.range_succ_eq_map, List.map_cons, List.map_map]
      refine congrArg₂ _ (by norm_num) ?_
      apply List.map_congr_left
      intro i _
      simp [Function.comp]
      ring_nf
    rcases Nat.eq_zero_or_pos fuel with hf | hf
    · subst hf
      simp [hrange]
    · have hne : fuel ≠ 0 := by omega
      simp only [hne, if_false, Nat.succ_ne_zero, harith, hrange,
        List.reverse_cons, List.append_assoc, List.singleton_append]

/-- C4. When every attempt hits one of the three transient statuses
(429 / 402 / 503), the sequence of sleeps performed is exactly
`retryDelay * 1, retryDelay * 2, …, retryDelay * maxRetries` — the sleep after
attempt `n` is `waitTime d n = d * n`, so for positive `retryDelay` the
backoff is linear and strictly increasing in the attempt number; in
particular `wait(attempt = 2) > wait(attempt = 1)`. -/
theorem requestWithRetry_backoff (model : String) (d : ℚ) (mr : Nat)
    (rs : Nat → Response) (hd : 0 < d)
    (h : ∀ n, 1 ≤ n → n ≤ mr → isTransient (rs n).status = true) :
    (requestWithRetry model d mr rs).sleeps
        = (List.range mr).map (fun i => waitTime d (i + 1))
      ∧ (∀ n : Nat, waitTime d n < waitTime d (n + 1))
      ∧ waitTime d 1 < waitTime d 2 := by
  have hmono : ∀ n : Nat, waitTime d n < waitTime d (n + 1) := by
    intro n
    unfold waitTime
    have hcast : (n : ℚ) < ((n + 1 : Nat) : ℚ) := by exact_mod_cast Nat.lt_succ_self n
    exact mul_lt_mul_of_pos_left hcast hd
  refine ⟨?_, hmono, hmono 1⟩
  unfold requestWithRetry
  rw [requestAux_transient model d mr rs mr 0 [] none
    (fun n hn1 hn2 => h n hn1 (by omega))]
  simp only [List.reverse_nil, List.nil_append]
  apply List.map_congr_left
  intro i _
  norm_num
  ring_nf

theorem requestWithRetry_backoff_witness :
    (requestWithRetry "m" 5 2 (fun _ => ⟨429, true, "", "", "b"⟩)).sleeps
        = [waitTime 5 1, waitTime 5 2]
      ∧ waitTime 5 1 < waitTime 5 2 := by
  have h := requestWithRetry_backoff "m" 5 2 (fun _ => ⟨429, true, "", "", "b"⟩)
    (by norm_num) (fun n _ _ => by simp [isTransient])
  refine ⟨?_, h.2.2⟩
  rw [h.1]
  simp [List.range_succ]

theorem lastCandidate_congr (d1 d2 : String) :
    ∀ l : List String, l ≠ [] → lastCandidate d1 l = lastCandidate d2 l
  | [], h => absurd rfl h
  | [_], _ => rfl
  | _ :: y :: xs, _ => lastCandidate_congr d1 d2 (y :: xs) (by simp)

theorem lastCandidate_append (d : String) (l2 : List String) (h : l2 ≠ []) :
    ∀ l1 : List String, lastCandidate d (l1 ++ l2) = lastCandidate d l2 := by
  intro l1
  induction l1 with
  | nil => rfl
  | cons a l1' ih =>
    have hcons : (a :: l1') ++ l2 = a :: (l1' ++ l2) := rfl
    rw [hcons]
    have hne : l1' ++ l2 ≠ [] := by
      intro hc
      rcases List.append_eq_nil.mp hc with ⟨_, h2⟩
      exact h h2
    rcases hcase : l1' ++ l2 with _ | ⟨y, ys⟩
    · exact absurd hcase hne
    · rw [show lastCandidate d (a :: y :: ys) = lastCandidate d (y :: ys) from rfl, ← hcase, ih]

theorem tryModels_allSkippable (oc : String → ReqResult) (d0 : String) :
    ∀ cs : List String, cs ≠ [] →
      (∀ x ∈ cs, skippable (oc x) = true) →
      ∀ le, tryModels oc cs le
        = (.allFailed (aggregateMsg (some (recordedErr (oc (lastCandidate d0 cs))))), cs) := by
  intro cs
  induction cs with
  | nil => intro h; exact absurd rfl h
  | cons m rest ih =>
    intro _ hall le
    have hm := hall m (List.mem_cons_self m rest)
    rcases hrest : rest with _ | ⟨r0, rest'⟩
    · cases hoc : oc m with
      | ok reply => rw [hoc] at hm; simp [skippable] at hm
      | jsonFail => rw [hoc] at hm; simp [skippable] at hm
      | fatal s => rw [hoc] at hm; simp [skippable] at hm
      | blocked msg => simp [tryModels, hoc, recordedErr, lastCandidate]
      | exhausted msg => simp [tryModels, hoc, recordedErr, lastCandidate]
    · rw [← hrest]
      have hrne : rest ≠ [] := by rw [hrest]; simp
      have hrall : ∀ x ∈ rest, skippable (oc x) = true :=
        fun x hx => hall x (List.mem_cons_of_mem m hx)
      have hlast : lastCandidate d0 (m :: rest) = lastCandidate d0 rest := by
        rcases rest with _ | ⟨a, b⟩
        · exact absurd rfl hrne
        · rfl
      cases hoc : oc m with
      | ok reply => rw [hoc] at hm; simp [skippable] at hm
      | jsonFail => rw [hoc] at hm; simp [skippable] at hm
      | fatal s => rw [hoc] at hm; simp [skippable] at hm
      | blocked msg =>
        simp only [tryModels, hoc]
        rw [ih hrne hrall (some msg), hlast]
      | exhausted msg =>
        simp only [tryModels, hoc]
        rw [ih hrne hrall (some msg), hlast]

theorem tryModels_stopAt (oc : String → ReqResult) (m : String) (rest : List String)
    (hm : skippable (oc m) = false) :
    ∀ pre, (∀ x ∈ pre, skippable (oc x) = true) →
      ∀ le, tryModels oc (pre ++ m :: rest) le = (stopResult m (oc m), pre ++ [m]) := by
  intro pre
  induction pre with
  | nil =>
    intro _ le
    cases hoc : oc m with
    | ok reply => simp [tryModels, hoc, stopResult]
    | jsonFail => simp [tryModels, hoc, stopResult]
    | fatal s => simp [tryModels, hoc, stopResult]
    | blocked msg => rw [hoc] at hm; simp [skippable] at hm
    | exhausted msg => rw [hoc] at hm; simp [skippable] at hm
  | cons x pre' ih =>
    intro hall le
    have hx := hall x (List.mem_cons_self x pre')
    have hall' : ∀ y ∈ pre', skippable (oc y) = true :=
      fun y hy => hall y (List.mem_cons_of_mem x hy)
    cases hoc : oc x with
    | ok reply => rw [hoc] at hx; simp [skippable] at hx
    | jsonFail => rw [hoc] at hx; simp [skippable] at hx
    | fatal s => rw [hoc] at hx; simp [skippable] at hx
    | blocked msg =>
      simp only [List.cons_append, tryModels, hoc, List.append_eq]
      rw [ih hall' (some msg)]
    | exhausted msg =>
      simp only [List.cons_append, tryModels, hoc, List.append_eq]
      rw [ih hall' (some msg)]

/-- C2. Splitting the candidate list as `pre ++ m :: post` with every model
in `pre` failing with a caught ("blocked" / "retries exhausted") error:
(i) if `m`'s protocol outcome is not one of the two caught errors,
`describe_image` stops at `m` — it returns `m`'s reply or propagates `m`'s
error, having tried exactly `pre ++ [m]`; (ii) if instead every remaining
candidate also fails with a caught error, `describe_image` tries the whole
candidate list and fails with the aggregate error built from the last
candidate's recorded failure, whose message contains that failure's message
verbatim; and (iii) a blocked failure's message names its candidate model. -/
theorem describeImage_protocol (p : String) (fbs : List String) (d : ℚ) (mr : Nat)
    (responses : String → Nat → Response)
    (pre : List String) (m : String) (post : List String)
    (hsplit : modelsToTry p fbs = pre ++ m :: post)
    (hpre : ∀ x ∈ pre, skippable (visionOutcome d mr responses x) = true) :
    (skippable (visionOutcome d mr responses m) = false →
        describeImage p fbs d mr responses
          = (stopResult m (visionOutcome d mr responses m), pre ++ [m]))
    ∧ ((∀ x ∈ m :: post, skippable (visionOutcome d mr responses x) = true) →
        describeImage p fbs d mr responses
          = (.allFailed (aggregateMsg (some (recordedErr
                (visionOutcome d mr responses (lastCandidate m (m :: post)))))),
             modelsToTry p fbs)
          ∧ ∃ s1 s2, (describeImage p fbs d mr responses).1
              = .allFailed (s1
                  ++ recordedErr (visionOutcome d mr responses (lastCandidate m (m :: post)))
                  ++ s2))
    ∧ (∀ model r, ∃ t1 t2, blockedMsg model r = t1 ++ model ++ t2) := by
  refine ⟨?_, ?_, ?_⟩
  · intro hm
    unfold describeImage
    rw [hsplit]
    exact tryModels_stopAt _ m post hm pre hpre none
  · intro hall
    have hne : pre ++ m :: post ≠ [] := by simp
    have hall2 : ∀ x ∈ pre ++ m :: post,
        skippable (visionOutcome d mr responses x) = true := by
      intro x hx
      rcases List.mem_append.mp hx with hx | hx
      · exact hpre x hx
      · exact hall x hx
    have hlast : lastCandidate m (pre ++ m :: post) = lastCandidate m (m :: post) :=
      lastCandidate_append m (m :: post) (by simp) pre
    have heq : describeImage p fbs d mr responses
        = (.allFailed (aggregateMsg (some (recordedErr
              (visionOutcome d mr responses (lastCandidate m (m :: post)))))),
           modelsToTry p fbs) := by
      unfold describeImage
      rw [hsplit, tryModels_allSkippable _ m _ hne hall2 none, hlast]
    refine ⟨heq, "All vision models failed. Last error: ", "", ?_⟩
    rw [heq]
    simp [aggregateMsg]
  · intro model r
    refine ⟨"Model ", " returned 403: " ++ blockedBody r, ?_⟩
    simp [blockedMsg, String.append_assoc]

theorem describeImage_protocol_witness :
    describeImage "M0" ["M1"] 5 1 (fun _ _ => ⟨403, true, "", "denied", "b"⟩)
      = (.allFailed "All vision models failed. Last error: Model M1 returned 403: denied",
         ["M0", "M1"]) := by
  have h := describeImage_protocol "M0" ["M1"] 5 1
    (fun _ _ => ⟨403, true, "", "denied", "b"⟩) [] "M0" ["M1"] (by decide)
    (by intro x hx; exact absurd hx (List.not_mem_nil x))
  have h2 := (h.2.1 (by decide)).1
  rw [h2]
  rfl

theorem dictInsert_values {P : Type} (Q : P → Prop) :
    ∀ (d : List (String × P)) (k : String) (v : P),
      Q v → (∀ kv ∈ d, Q kv.2) → ∀ kv ∈ dictInsert d k v, Q kv.2 := by
  intro d
  induction d with
  | nil =>
    intro k v hv _ kv hkv
    rw [dictInsert] at hkv
    rcases List.mem_singleton.mp hkv with rfl
    exact hv
  | cons kv0 d ih =>
    intro k v hv hd kv hkv
    rw [dictInsert] at hkv
    by_cases h : (kv0.1 == k) = true
    · rw [if_pos h] at hkv
      rcases List.mem_cons.mp hkv with rfl | hkv
      · exact hv
      · exact hd kv (List.mem_cons_of_mem _ hkv)
    · rw [if_neg h] at hkv
      rcases List.mem_cons.mp hkv with rfl | hkv
      · exact hd kv (List.mem_cons_self _ _)
      · exact ih k v hv (fun x hx => hd x (List.mem_cons_of_mem _ hx)) kv hkv

theorem foldl_perFile_values (extract : DFile → Option String) :
    ∀ (files : List DFile) (d : List (String × String)),
      (∀ f ∈ files, contentOrPlaceholder (extract f) = failPlaceholder) →
      (∀ kv ∈ d, kv.2 = failPlaceholder) →
      ∀ kv ∈ files.foldl
          (fun d f => dictInsert d f.name (contentOrPlaceholder (extract f))) d,
        kv.2 = failPlaceholder := by
  intro files
  induction files with
  | nil => intro d _ hd kv hkv; exact hd kv hkv
  | cons f fs ih =>
    intro d hf hd kv hkv
    rw [List.foldl_cons] at hkv
    exact ih (dictInsert d f.name (contentOrPlaceholder (extract f)))
      (fun g hg => hf g (List.mem_cons_of_mem _ hg))
      (dictInsert_values (fun v => v = failPlaceholder) d f.name _
        (hf f (List.mem_cons_self _ _)) hd)
      kv hkv

theorem summarize_placeholder_aux (files : List DFile)
    (extract : DFile → Option String) (chat : String → String) (hne : files ≠ [])
    (hfail : ∀ f ∈ files, contentOrPlaceholder (extract f) = failPlaceholder) :
    summarizeFolder files extract chat = ⟨nothingExtractedMsg, files, []⟩ := by
  unfold summarizeFolder
  have h1 : files.isEmpty = false := by
    rcases files with _ | ⟨f, fs⟩
    · exact absurd rfl hne
    · rfl
  have hall : (perFileMap files extract).all (fun kv => kv.2 == failPlaceholder)
      = true := by
    rw [List.all_eq_true]
    intro kv hkv
    have hv := foldl_perFile_values extract files [] hfail
      (by intro kv h; exact absurd h (List.not_mem_nil kv)) kv hkv
    exact beq_iff_eq.mpr hv
  simp only [h1, Bool.false_eq_true, if_false, hall, if_true]

/-- C5. With zero downloaded files, `summarize_folder` returns the fixed
"folder empty" message, attempts no extraction and issues no chat call. -/
theorem summarizeFolder_empty (extract : DFile → Option String)
    (chat : String → String) :
    summarizeFolder [] extract chat = ⟨emptyFolderMsg, [], []⟩ := rfl

/-- C6. With a non-empty file list on which every extraction fails (the
oracle yields `none`, so every recorded value is the failure placeholder),
`summarize_folder` returns the fixed "nothing extracted" message and issues no
chat call. -/
theorem summarizeFolder_allFailed (files : List DFile)
    (extract : DFile → Option String) (chat : String → String)
    (hne : files ≠ []) (hfail : ∀ f ∈ files, extract f = none) :
    summarizeFolder files extract chat = ⟨nothingExtractedMsg, files, []⟩ :=
  summarize_placeholder_aux files extract chat hne
    (fun f hf => by rw [hfail f hf]; rfl)

theorem summarizeFolder_allFailed_witness :
    summarizeFolder [⟨"/a", "a.txt"⟩] (fun _ => none) (fun _ => "reply")
      = ⟨nothingExtractedMsg, [⟨"/a", "a.txt"⟩], []⟩ :=
  summarizeFolder_allFailed _ _ _ (by simp) (fun _ _ => rfl)

/-- C9. An extractor returning the empty string without raising is
recorded exactly like a failed extraction: the empty string maps to the
failure placeholder; the text extractor returns `""` when every configured
encoding fails to decode; and a non-empty folder whose files all extract to
`""` short-circuits to the "nothing extracted" message with no chat call. -/
theorem summarizeFolder_emptyExtractions (files : List DFile)
    (extract : DFile → Option String) (chat : String → String)
    (hne : files ≠ []) (hempty : ∀ f ∈ files, extract f = some "") :
    contentOrPlaceholder (some "") = failPlaceholder
    ∧ (∀ decode : String → Option String,
        (∀ enc ∈ ENCODINGS, decode enc = none) → textExtract decode ENCODINGS = "")
    ∧ summarizeFolder files extract chat = ⟨nothingExtractedMsg, files, []⟩ := by
  refine ⟨rfl, ?_, ?_⟩
  · intro decode hdec
    have h1 := hdec "utf-8" (by simp [ENCODINGS])
    have h2 := hdec "cp1251" (by simp [ENCODINGS])
    have h3 := hdec "latin-1" (by simp [ENCODINGS])
    simp [ENCODINGS, textExtract, h1, h2, h3]
  · exact summarize_placeholder_aux files extract chat hne
      (fun f hf => by rw [hempty f hf]; rfl)

theorem summarizeFolder_emptyExtractions_witness :
    contentOrPlaceholder (some "") = failPlaceholder
    ∧ summarizeFolder [⟨"/a", "a.txt"⟩] (fun _ => some "") (fun _ => "reply")
        = ⟨nothingExtractedMsg, [⟨"/a", "a.txt"⟩], []⟩ := by
  have h := summarizeFolder_emptyExtractions [⟨"/a", "a.txt"⟩] (fun _ => some "")
    (fun _ => "reply") (by simp) (fun _ _ => rfl)
  exact ⟨h.1, h.2.2⟩

theorem joinSep_infix (sep : String) :
    ∀ l : List String, ∀ x ∈ l, ∃ a b, joinSep sep l = a ++ x ++ b := by
  intro l
  induction l with
  | nil => intro x hx; exact absurd hx (List.not_mem_nil x)
  | cons x0 rest ih =>
    intro x hx
    rcases hrest : rest with _ | ⟨y, ys⟩
    · subst hrest
      rcases List.mem_singleton.mp hx with rfl
      refine ⟨"", "", ?_⟩
      show x = ("" ++ x) ++ ""
      rw [String.empty_append, String.append_empty]
    · subst hrest
      rcases List.mem_cons.mp hx with rfl | hx2
      · refine ⟨"", sep ++ joinSep sep (y :: ys), ?_⟩
        show (x ++ sep) ++ joinSep sep (y :: ys) = ("" ++ x) ++ (sep ++ joinSep sep (y :: ys))
        rw [String.empty_append, String.append_assoc]
      · obtain ⟨a, b, hab⟩ := ih x hx2
        refine ⟨(x0 ++ sep) ++ a, b, ?_⟩
        show (x0 ++ sep) ++ joinSep sep (y :: ys) = (((x0 ++ sep) ++ a) ++ x) ++ b
        rw [hab]
        simp only [String.append_assoc]

/-- C7. Per-file truncation in the assembled prompt: the section for a
file is its name header plus the (possibly truncated) content; content longer
than the 12000-character cap is cut to exactly the first 12000 characters with
the truncation marker appended, content within the cap appears unchanged; and
every entry of the per-file map contributes its section to the combined prompt
as a contiguous substring. -/
theorem prompt_truncation (pf : List (String × String)) (name c : String)
    (hmem : (name, c) ∈ pf) :
    filePart name c = "### Файл: " ++ name ++ "\n\n" ++ truncateContent c
    ∧ (12000 < c.length →
        truncateContent c = c.take 12000 ++ truncMarker
          ∧ (c.take 12000).length = 12000)
    ∧ (c.length ≤ 12000 → truncateContent c = c)
    ∧ ∃ s1 s2, combinedPrompt pf = s1 ++ filePart name c ++ s2 := by
  refine ⟨rfl, ?_, ?_, ?_⟩
  · intro h
    constructor
    · show (if 12000 < c.length then c.take 12000 ++ truncMarker else c.take 12000)
          = c.take 12000 ++ truncMarker
      rw [if_pos h]
    · cases c with
      | mk l =>
        rw [String.take_eq]
        show (l.take 12000).length = 12000
        rw [List.length_take]
        have hl : 12000 < l.length := h
        omega
  · intro h
    show (if 12000 < c.length then c.take 12000 ++ truncMarker else c.take 12000) = c
    rw [if_neg (by omega)]
    cases c with
    | mk l =>
      rw [String.take_eq]
      congr 1
      exact List.take_of_length_le h
  · have hp : filePart name c ∈ pf.map (fun kv => filePart kv.1 kv.2) :=
      List.mem_map_of_mem _ hmem
    obtain ⟨a, b, hab⟩ := joinSep_infix sectionSep _ _ hp
    refine ⟨promptHeader ++ a, b, ?_⟩
    unfold combinedPrompt
    rw [hab]
    simp only [String.append_assoc]

theorem prompt_truncation_witness :
    truncateContent "hi" = "hi"
    ∧ ∃ s1 s2, combinedPrompt [("a.txt", "hi")] = s1 ++ filePart "a.txt" "hi" ++ s2 := by
  have h := prompt_truncation [("a.txt", "hi")] "a.txt" "hi" (by simp)
  exact ⟨h.2.2.1 (by decide), h.2.2.2⟩

theorem lookupKey_dictInsert {P : Type} :
    ∀ (d : List (String × P)) (k' : String) (v : P) (k : String),
      lookupKey (dictInsert d k' v) k = if k' == k then some v else lookupKey d k := by
  intro d
  induction d with
  | nil => intro k' v k; rfl
  | cons kv0 d ih =>
    intro k' v k
    by_cases h0 : (kv0.1 == k') = true
    · by_cases h : (k' == k) = true
      · simp [dictInsert, lookupKey, h0, h]
      · have hk0 : ¬ (kv0.1 == k) = true := by
          intro hc
          exact h (beq_iff_eq.mpr (by rw [← beq_iff_eq.mp h0, beq_iff_eq.mp hc]))
        simp [dictInsert, lookupKey, h0, h, hk0]
    · by_cases hk0 : (kv0.1 == k) = true
      · have hne : ¬ (k' == k) = true := by
          intro hc
          exact h0 (beq_iff_eq.mpr (by rw [beq_iff_eq.mp hk0, beq_iff_eq.mp hc]))
        simp [dictInsert, lookupKey, h0, hk0, hne]
      · simp [dictInsert, lookupKey, h0, hk0, ih]

theorem lookupKey_eq_none {P : Type} :
    ∀ (d : List (String × P)) (k : String),
      ¬ k ∈ d.map Prod.fst → lookupKey d k = none := by
  intro d
  induction d with
  | nil => intro k _; rfl
  | cons kv d ih =>
    intro k hk
    rw [List.map_cons] at hk
    have h1 : ¬ (kv.1 == k) = true := by
      intro hc
      exact hk (by rw [beq_iff_eq.mp hc]; exact List.mem_cons_self _ _)
    simp only [lookupKey, h1, if_false]
    exact ih k (fun hc => hk (List.mem_cons_of_mem _ hc))

/-- C8. Processor resolution is case-insensitive on the extension: after
`register(extension, handler)`, resolving any case variant of that extension
(same lowercase form) yields that handler; resolving an extension whose
lowercase form was never registered yields `none` rather than raising; and in
particular `.PDF` and `.pdf` always resolve to the same handler. -/
theorem registry_resolve_spec {P : Type} (m : List (String × P))
    (ext variant : String) (cls : P) (hvar : lowerStr variant = lowerStr ext) :
    getProcessor (registerProcessor m ext cls) variant = some cls
    ∧ (∀ (m2 : List (String × P)) (s : String),
        ¬ lowerStr s ∈ m2.map Prod.fst → getProcessor m2 s = none)
    ∧ (∀ r : List (String × P), getProcessor r ".PDF" = getProcessor r ".pdf") := by
  refine ⟨?_, ?_, ?_⟩
  · unfold getProcessor registerProcessor
    rw [hvar, lookupKey_dictInsert, if_pos (beq_self_eq_true _)]
  · intro m2 s h
    exact lookupKey_eq_none m2 (lowerStr s) h
  · intro r
    unfold getProcessor
    rw [show lowerStr ".PDF" = lowerStr ".pdf" from by decide]

theorem registry_resolve_witness :
    getProcessor (registerProcessor ([] : List (String × Nat)) ".pdf" 7) ".PDF"
      = some 7 :=
  (registry_resolve_spec ([] : List (String × Nat)) ".pdf" ".PDF" 7 (by decide)).1

theorem keys_dictInsert {P : Type} :
    ∀ (d : List (String × P)) (k : String) (v : P),
      (dictInsert d k v).map Prod.fst = insertCand (d.map Prod.fst) k := by
  intro d
  induction d with
  | nil => intro k v; simp [dictInsert, insertCand]
  | cons kv d ih =>
    intro k v
    by_cases h : (kv.1 == k) = true
    · have hk : kv.1 = k := beq_iff_eq.mp h
      have hmem : k ∈ (kv :: d).map Prod.fst := by
        rw [List.map_cons, hk]
        exact List.mem_cons_self _ _
      simp [dictInsert, h, insertCand, hmem, hk]
    · have hk : kv.1 ≠ k := fun hc => h (beq_iff_eq.mpr hc)
      rw [dictInsert, if_neg h, List.map_cons, List.map_cons, ih]
      by_cases hmem : k ∈ d.map Prod.fst
      · simp [insertCand, hmem, Ne.symm hk]
      · simp [insertCand, hmem, Ne.symm hk]

theorem perFileMap_keys_aux (extract : DFile → Option String) :
    ∀ (files : List DFile) (d : List (String × String)),
      (files.foldl
          (fun d f => dictInsert d f.name (contentOrPlaceholder (extract f))) d).map
          Prod.fst
        = (files.map DFile.name).foldl insertCand (d.map Prod.fst) := by
  intro files
  induction files with
  | nil => intro d; rfl
  | cons f fs ih =>
    intro d
    rw [List.foldl_cons, List.map_cons, List.foldl_cons, ih, keys_dictInsert]

theorem perFileMap_lookup_aux (extract : DFile → Option String) (k : String) :
    ∀ (files : List DFile) (d : List (String × String)),
      lookupKey
          (files.foldl
            (fun d f => dictInsert d f.name (contentOrPlaceholder (extract f))) d) k
        = match findLastNamed k files with
          | some f => some (contentOrPlaceholder (extract f))
          | none => lookupKey d k := by
  intro files
  induction files with
  | nil => intro d; rfl
  | cons f fs ih =>
    intro d
    rw [List.foldl_cons, ih]
    rcases hfl : findLastNamed k fs with _ | g
    · simp only [findLastNamed, hfl, lookupKey_dictInsert]
      by_cases h : (f.name == k) = true
      · simp [h]
      · simp [h]
    · simp only [findLastNamed, hfl]

theorem dictInsert_notMem {P : Type} :
    ∀ (d : List (String × P)) (k : String) (v : P),
      ¬ k ∈ d.map Prod.fst → dictInsert d k v = d ++ [(k, v)] := by
  intro d
  induction d with
  | nil => intro k v _; rfl
  | cons kv d ih =>
    intro k v hk
    rw [List.map_cons] at hk
    have h1 : ¬ (kv.1 == k) = true := by
      intro hc
      exact hk (by rw [beq_iff_eq.mp hc]; exact List.mem_cons_self _ _)
    rw [dictInsert, if_neg h1, ih k v (fun hc => hk (List.mem_cons_of_mem _ hc)),
      List.cons_append]

theorem perFileMap_nodup_aux (extract : DFile → Option String) :
    ∀ (files : List DFile) (d : List (String × String)),
      (∀ f ∈ files, ¬ f.name ∈ d.map Prod.fst) →
      (files.map DFile.name).Nodup →
      files.foldl (fun d f => dictInsert d f.name (contentOrPlaceholder (extract f))) d
        = d ++ files.map (fun f => (f.name, contentOrPlaceholder (extract f))) := by
  intro files
  induction files with
  | nil => intro d _ _; simp
  | cons f fs ih =>
    intro d hd hnodup
    rw [List.map_cons, List.nodup_cons] at hnodup
    rw [List.foldl_cons,
      dictInsert_notMem d f.name _ (hd f (List.mem_cons_self _ _)),
      ih (d ++ [(f.name, contentOrPlaceholder (extract f))]) ?_ hnodup.2]
    · simp
    · intro g hg
      rw [List.map_append]
      intro hc
      rcases List.mem_append.mp hc with hc | hc
      · exact hd g (List.mem_cons_of_mem _ hg) hc
      · have hgf : g.name = f.name := by simpa using hc
        exact hnodup.1 (hgf ▸ List.mem_map_of_mem DFile.name hg)

/-- C10. The `per_file` map is keyed by base name: (i) when all base names
are pairwise distinct, it is exactly one entry per file in download order;
(ii) its keys are always the first-seen deduplication of the download-order
name sequence, so a repeated base name yields a single section placed at its
first occurrence; and (iii) the value stored under any name is the content of
the *last* downloaded file bearing that name. -/
theorem perFileMap_spec (files : List DFile) (extract : DFile → Option String) :
    ((files.map DFile.name).Nodup →
        perFileMap files extract
          = files.map (fun f => (f.name, contentOrPlaceholder (extract f))))
    ∧ (perFileMap files extract).map Prod.fst = dedupFirstSeen (files.map DFile.name)
    ∧ ∀ k, lookupKey (perFileMap files extract) k
        = (findLastNamed k files).map (fun f => contentOrPlaceholder (extract f)) := by
  refine ⟨?_, ?_, ?_⟩
  · intro hnodup
    have h := perFileMap_nodup_aux extract files []
      (by intro f _ hc; exact absurd hc (List.not_mem_nil _)) hnodup
    simpa [perFileMap] using h
  · have h1 := perFileMap_keys_aux extract files []
    have h2 := foldl_insertCand (files.map DFile.name) []
    have h3 : (files.map DFile.name).filter (fun y => ¬ y ∈ ([] : List String))
        = files.map DFile.name := by
      apply List.filter_eq_self.mpr
      intro a _
      simp
    unfold perFileMap
    rw [h1]
    rw [show ([] : List (String × String)).map Prod.fst = ([] : List String) from rfl]
    rw [h2, h3]
    rfl
  · intro k
    have h := perFileMap_lookup_aux extract k files []
    unfold perFileMap
    rw [h]
    rcases hfl : findLastNamed k files with _ | g
    · rfl
    · rfl

theorem perFileMap_spec_witness :
    perFileMap [⟨"/a", "a.txt"⟩, ⟨"/b", "b.pdf"⟩] (fun f => some f.path)
      = [("a.txt", "/a"), ("b.pdf", "/b")] := by
  have h := perFileMap_spec [⟨"/a", "a.txt"⟩, ⟨"/b", "b.pdf"⟩] (fun f => some f.path)
  rw [h.1 (by decide)]
  rfl

end GdriveSummarizer
